import Mathlib

/-!
Verification of the `cache` package of amfora: a bounded in-memory page
cache with a map from URL to page (`pages`), an insertion-order record
(`urls`), configurable limits (`maxPages`, `maxSize`), and a TTL
(`timeout`).  The Go code is embedded shallowly: the map is an
association list with unique keys, machine integers are `Int`, byte
sizes are `Nat`, and the two unbounded eviction loops of `AddPage` are
given explicit fuel, `none` marking the behaviours the Go code cannot
recover from (an out-of-range `urls[0]` read, or fuel exhaustion).
-/

namespace Amfora

/-- Modelled from the spec: `structs.Page` is not part of the sources at
hand, only its use sites are.  The spec describes a Document as an
identifier (URL), raw content, a derived content size in bytes, and a
creation timestamp.  `size` is the value of the Go method `Page.Size()`
(a byte count, hence `Nat`); `madeAt` is the creation time in
nanoseconds. -/
structure Page where
  url : String
  content : String
  size : Nat
  madeAt : Int
  deriving Repr, DecidableEq

/-- The package-level mutable state of the `cache` package:
`pages` (the Go map, as an association list), `urls` (the order
record), and the three configuration variables. -/
structure Cache where
  pages : List (String × Page)
  urls : List String
  maxPages : Int
  maxSize : Int
  timeout : Int
  deriving Repr, DecidableEq

/-- Go map read `pages[url]`: first binding of the key, if any.
(With unique keys, "first" is "the" binding.) -/
def mapLookup : List (String × Page) → String → Option Page
  | [], _ => none
  | (k, v) :: rest, key => if k = key then some v else mapLookup rest key

/-- Go map write `pages[url] = p`: replace the binding of the key if
present, otherwise add a new binding. -/
def mapInsert : List (String × Page) → String → Page → List (String × Page)
  | [], key, v => [(key, v)]
  | (k, w) :: rest, key, v =>
      if k = key then (key, v) :: rest else (k, w) :: mapInsert rest key v

/-- Go map `delete(pages, url)`: drop the binding of the key if present. -/
def mapDelete : List (String × Page) → String → List (String × Page)
  | [], _ => []
  | (k, w) :: rest, key => if k = key then rest else (k, w) :: mapDelete rest key

/-- `removeIndex(s, i)` from the Go source: swap `s[i]` with the last
element, then truncate the last element
(`s[len(s)-1], s[i] = s[i], s[len(s)-1]; return s[:len(s)-1]`).
The only caller passes an in-range index. -/
def removeIndex (s : List String) (i : Nat) : List String :=
  let si := s.getD i ""
  let last := s.getD (s.length - 1) ""
  ((s.set (s.length - 1) si).set i last).take (s.length - 1)

/-- `removeURL(url)` from the Go source: find the first position of
`url` in the order record and remove it via `removeIndex`. -/
def removeURL (urls : List String) (url : String) : List String :=
  match urls.findIdx? (· = url) with
  | some i => removeIndex urls i
  | none => urls

/-- `NumPages()` = `len(pages)` (a Go `int`). -/
def numPages (c : Cache) : Int := (c.pages.length : Int)

/-- The byte total of an entry table: sum of `page.Size()` over the bindings. -/
def sizeL (m : List (String × Page)) : Nat := (m.map (fun kv => kv.2.size)).sum

/-- `SizePages()`: sum of `page.Size()` over the map (a Go `int`). -/
def sizePages (c : Cache) : Int := (sizeL c.pages : Int)

/-- `RemovePage(url)`: delete from the map and from the order record. -/
def removePage (c : Cache) (url : String) : Cache :=
  { c with pages := mapDelete c.pages url, urls := removeURL c.urls url }

/-- `ClearPages()`: reset both structures. -/
def clearPages (c : Cache) : Cache :=
  { c with pages := [], urls := [] }

/-- `GetPage(url)` at clock reading `now`:
`p, ok := pages[url]; if ok && (timeout == 0 || time.Since(p.MadeAt) < timeout)`.
`time.Since(p.MadeAt)` is `now - p.madeAt`. -/
def getPage (c : Cache) (url : String) (now : Int) : Option Page :=
  match mapLookup c.pages url with
  | some p => if c.timeout = 0 ∨ now - p.madeAt < c.timeout then some p else none
  | none => none

/-- `SetMaxPages(max)`. -/
def setMaxPages (c : Cache) (max : Int) : Cache := { c with maxPages := max }

/-- `SetMaxSize(max)`. -/
def setMaxSize (c : Cache) (max : Int) : Cache := { c with maxSize := max }

/-- `SetTimeout(t)`: clamp nonpositive values to zero, otherwise
`t` seconds, i.e. `t * time.Second` nanoseconds. -/
def setTimeout (c : Cache) (t : Int) : Cache :=
  if t ≤ 0 then { c with timeout := 0 } else { c with timeout := t * 1000000000 }

/-- The first eviction loop of `AddPage`:
`for NumPages() >= maxPages && maxPages > 0 { RemovePage(urls[0]) }`.
`none` is the Go behaviour the loop cannot return from: an `urls[0]`
read of an empty slice (a panic) or an unproductive loop (fuel runs out
with the condition still true). -/
def evictForCount : Nat → Cache → Option Cache
  | 0, c =>
      if c.maxPages ≤ numPages c ∧ 0 < c.maxPages then none else some c
  | fuel + 1, c =>
      if c.maxPages ≤ numPages c ∧ 0 < c.maxPages then
        match c.urls with
        | [] => none
        | u :: _ => evictForCount fuel (removePage c u)
      else some c

/-- The second eviction loop of `AddPage`:
`for SizePages()+p.Size() > maxSize && maxSize > 0 { RemovePage(urls[0]) }`. -/
def evictForSize (p : Page) : Nat → Cache → Option Cache
  | 0, c =>
      if c.maxSize < sizePages c + (p.size : Int) ∧ 0 < c.maxSize then none else some c
  | fuel + 1, c =>
      if c.maxSize < sizePages c + (p.size : Int) ∧ 0 < c.maxSize then
        match c.urls with
        | [] => none
        | u :: _ => evictForSize p fuel (removePage c u)
      else some c

/-- The final, locked section of `AddPage`: write the page into the map,
remove the URL from the order record if it was already there, and append
it at the end. -/
def insertFinal (c : Cache) (p : Page) : Cache :=
  { c with
      pages := mapInsert c.pages p.url p,
      urls := removeURL c.urls p.url ++ [p.url] }

/-- `AddPage(p)`: reject the empty URL, reject a page that can never fit,
run both eviction loops, then insert.  The fuel of each loop is the
number of cached pages at its start, which suffices whenever the order
record and the map are in sync. -/
def addPage (c : Cache) (p : Page) : Option Cache :=
  if p.url = "" then some c
  else if c.maxSize < (p.size : Int) ∧ 0 < c.maxSize then some c
  else
    match evictForCount c.pages.length c with
    | none => none
    | some c1 =>
        match evictForSize p c1.pages.length c1 with
        | none => none
        | some c2 => some (insertFinal c2 p)

/-- A sequence of `AddPage` calls, stopping at the first failure. -/
def runAdds (c : Cache) : List Page → Option Cache
  | [] => some c
  | p :: ps =>
      match addPage c p with
      | none => none
      | some c' => runAdds c' ps

/-- The initial state of the package-level variables: empty map, empty
order record, all limits zero. -/
def initial : Cache := ⟨[], [], 0, 0, 0⟩

/-- The state after the startup configuration calls
`cache.SetMaxPages` / `cache.SetMaxSize` on the initial state. -/
def initWith (mp ms : Int) : Cache := setMaxSize (setMaxPages initial mp) ms

/-- The synchronisation invariant of the cache: the order record has no
duplicates, the map keys have no duplicates, and both carry the same set
of identifiers. -/
def Inv (c : Cache) : Prop :=
  c.urls.Nodup ∧ (c.pages.map Prod.fst).Nodup ∧
    (∀ u ∈ c.urls, u ∈ c.pages.map Prod.fst) ∧
    (∀ u ∈ c.pages.map Prod.fst, u ∈ c.urls)

instance (c : Cache) : Decidable (Inv c) := by
  unfold Inv; infer_instance

/-! ## Order-record helper lemmas

`removeIndex` swaps the removed position with the last element before
truncating, so it does not preserve relative order; it does however
produce a permutation of the straightforward deletion, which is all the
membership, duplicate-freedom and length bookkeeping needs. -/

theorem take_set_of_le {α : Type} (l : List α) (i n : Nat) (x : α) (h : n ≤ i) :
    (l.set i x).take n = l.take n := by
  induction l generalizing i n with
  | nil => simp
  | cons a l ih =>
      cases n with
      | zero => simp
      | succ n =>
          cases i with
          | zero => omega
          | succ i =>
              simp only [List.set_cons_succ, List.take_succ_cons]
              rw [ih i n (by omega)]

theorem removeIndex_zero_perm (a : String) (l : List String) :
    (removeIndex (a :: l) 0).Perm l := by
  cases l with
  | nil => simp [removeIndex]
  | cons b t =>
      have h1 : removeIndex (a :: b :: t) 0 =
          (b :: t).getD t.length "" :: (b :: t).take t.length := by
        simp only [removeIndex, List.length_cons, Nat.add_sub_cancel,
          List.getD_cons_zero, List.getD_cons_succ, List.set_cons_succ,
          List.set_cons_zero, List.take_succ_cons]
        rw [take_set_of_le _ _ _ _ (le_refl _)]
      have h2 : b :: t = (b :: t).take t.length ++ [(b :: t).getD t.length ""] := by
        conv_lhs => rw [← List.take_append_drop t.length (b :: t)]
        congr 1
        rw [List.drop_eq_getElem_cons (by simp)]
        simp [List.getD_eq_getElem]
      rw [h1]
      conv_rhs => rw [h2]
      exact (List.perm_append_singleton _ _).symm

theorem removeIndex_cons_succ (a : String) (l : List String) (j : Nat)
    (h : j < l.length) : removeIndex (a :: l) (j + 1) = a :: removeIndex l j := by
  obtain ⟨m, hm⟩ : ∃ m, l.length = m + 1 := ⟨l.length - 1, by omega⟩
  simp only [removeIndex, List.length_cons, hm, Nat.add_sub_cancel,
    List.getD_cons_succ, List.set_cons_succ, List.take_succ_cons]

/-- `removeURL` produces a permutation of deleting the first occurrence. -/
theorem removeURL_perm (s : List String) (u : String) :
    (removeURL s u).Perm (s.erase u) := by
  induction s with
  | nil => simp [removeURL, List.findIdx?]
  | cons a l ih =>
      unfold removeURL
      rw [List.findIdx?_cons]
      by_cases ha : a = u
      · subst ha
        simp only [decide_eq_true_eq, if_pos rfl, List.erase_cons_head]
        exact removeIndex_zero_perm a l
      · rw [List.erase_cons_tail (by simpa using ha)]
        simp only [decide_eq_true_eq, if_neg ha, List.findIdx?_succ]
        cases hf : l.findIdx? (fun x => x = u) with
        | none =>
            simp only [Option.map_none']
            have hu : u ∉ l := by
              intro hu
              have := List.findIdx?_eq_none_iff.mp hf u hu
              simp at this
            rw [List.erase_of_not_mem hu]
        | some j =>
            simp only [Option.map_some']
            have hj : j < l.length :=
              (List.findIdx?_eq_some_iff_findIdx_eq.mp hf).1
            rw [removeIndex_cons_succ a l j hj]
            have hl : removeURL l u = removeIndex l j := by
              unfold removeURL
              rw [hf]
            exact List.Perm.cons a (hl ▸ ih)

theorem removeURL_nodup {s : List String} {u : String} (h : s.Nodup) :
    (removeURL s u).Nodup :=
  ((removeURL_perm s u).nodup_iff).mpr (h.erase u)

theorem mem_removeURL_iff {s : List String} {u x : String} (h : s.Nodup) :
    x ∈ removeURL s u ↔ x ≠ u ∧ x ∈ s :=
  (removeURL_perm s u).mem_iff.trans (h.mem_erase_iff)

theorem mem_of_mem_removeURL {s : List String} {u x : String}
    (hx : x ∈ removeURL s u) : x ∈ s :=
  List.mem_of_mem_erase ((removeURL_perm s u).mem_iff.mp hx)

theorem length_removeURL_of_mem {s : List String} {u : String} (h : u ∈ s) :
    (removeURL s u).length = s.length - 1 := by
  rw [(removeURL_perm s u).length_eq, List.length_erase_of_mem h]

/-! ## Entry-table (association list) lemmas -/

theorem mapLookup_eq_none_iff (m : List (String × Page)) (k : String) :
    mapLookup m k = none ↔ k ∉ m.map Prod.fst := by
  induction m with
  | nil => simp [mapLookup]
  | cons kv rest ih =>
      obtain ⟨a, v⟩ := kv
      by_cases ha : a = k
      · subst ha
        simp [mapLookup]
      · simp [mapLookup, ha, ih, Ne.symm ha]

theorem mapLookup_isSome_iff (m : List (String × Page)) (k : String) :
    (mapLookup m k).isSome ↔ k ∈ m.map Prod.fst := by
  induction m with
  | nil => simp [mapLookup]
  | cons kv rest ih =>
      obtain ⟨a, v⟩ := kv
      by_cases ha : a = k
      · subst ha
        simp [mapLookup]
      · simp [mapLookup, ha, ih, Ne.symm ha]

theorem mapDelete_keys (m : List (String × Page)) (k : String) :
    (mapDelete m k).map Prod.fst = (m.map Prod.fst).erase k := by
  induction m with
  | nil => simp [mapDelete]
  | cons kv rest ih =>
      obtain ⟨a, v⟩ := kv
      by_cases ha : a = k
      · subst ha
        simp [mapDelete, List.erase_cons_head]
      · rw [List.map_cons]
        rw [List.erase_cons_tail (by simpa using ha)]
        simp [mapDelete, ha, ih]

theorem length_mapDelete_of_mem {m : List (String × Page)} {k : String}
    (h : k ∈ m.map Prod.fst) : (mapDelete m k).length = m.length - 1 := by
  have h1 : (mapDelete m k).length = ((mapDelete m k).map Prod.fst).length := by
    rw [List.length_map]
  rw [h1, mapDelete_keys, List.length_erase_of_mem h, List.length_map]

theorem mapLookup_mapDelete_self {m : List (String × Page)} {k : String}
    (h : (m.map Prod.fst).Nodup) : mapLookup (mapDelete m k) k = none := by
  induction m with
  | nil => simp [mapDelete, mapLookup]
  | cons kv rest ih =>
      obtain ⟨a, v⟩ := kv
      rw [List.map_cons, List.nodup_cons] at h
      by_cases ha : a = k
      · subst ha
        simp only [mapDelete, if_pos rfl]
        exact (mapLookup_eq_none_iff rest a).mpr h.1
      · simp only [mapDelete, if_neg ha, mapLookup, if_neg ha]
        exact ih h.2

theorem mapLookup_mapDelete_ne {m : List (String × Page)} {k k' : String}
    (h : k' ≠ k) : mapLookup (mapDelete m k) k' = mapLookup m k' := by
  induction m with
  | nil => simp [mapDelete]
  | cons kv rest ih =>
      obtain ⟨a, v⟩ := kv
      by_cases ha : a = k
      · subst ha
        simp [mapDelete, mapLookup, Ne.symm h]
      · simp only [mapDelete, if_neg ha, mapLookup]
        by_cases ha' : a = k'
        · simp [ha']
        · simp [ha', ih]

theorem mapInsert_keys (m : List (String × Page)) (k : String) (v : Page) :
    (mapInsert m k v).map Prod.fst =
      if k ∈ m.map Prod.fst then m.map Prod.fst else m.map Prod.fst ++ [k] := by
  induction m with
  | nil => simp [mapInsert]
  | cons kv rest ih =>
      obtain ⟨a, w⟩ := kv
      by_cases ha : a = k
      · subst ha
        simp [mapInsert]
      · simp only [mapInsert, if_neg ha, List.map_cons, ih]
        by_cases hk : k ∈ rest.map Prod.fst
        · simp [hk, Ne.symm ha]
        · simp [hk, Ne.symm ha]

theorem length_mapInsert_of_mem {m : List (String × Page)} {k : String}
    (v : Page) (h : k ∈ m.map Prod.fst) : (mapInsert m k v).length = m.length := by
  have h1 : (mapInsert m k v).length = ((mapInsert m k v).map Prod.fst).length := by
    rw [List.length_map]
  rw [h1, mapInsert_keys, if_pos h, List.length_map]

theorem length_mapInsert_le (m : List (String × Page)) (k : String) (v : Page) :
    (mapInsert m k v).length ≤ m.length + 1 := by
  have h1 : (mapInsert m k v).length = ((mapInsert m k v).map Prod.fst).length := by
    rw [List.length_map]
  rw [h1, mapInsert_keys]
  by_cases h : k ∈ m.map Prod.fst <;> simp [h]

theorem mapLookup_mapInsert_self (m : List (String × Page)) (k : String) (v : Page) :
    mapLookup (mapInsert m k v) k = some v := by
  induction m with
  | nil => simp [mapInsert, mapLookup]
  | cons kv rest ih =>
      obtain ⟨a, w⟩ := kv
      by_cases ha : a = k
      · subst ha
        simp [mapInsert, mapLookup]
      · simp [mapInsert, ha, mapLookup, ih]

theorem mapLookup_mapInsert_ne (m : List (String × Page)) {k k' : String} (v : Page)
    (h : k' ≠ k) : mapLookup (mapInsert m k v) k' = mapLookup m k' := by
  induction m with
  | nil => simp [mapInsert, mapLookup, Ne.symm h]
  | cons kv rest ih =>
      obtain ⟨a, w⟩ := kv
      by_cases ha : a = k
      · subst ha
        simp [mapInsert, mapLookup, Ne.symm h]
      · simp only [mapInsert, if_neg ha, mapLookup]
        by_cases ha' : a = k'
        · simp [ha']
        · simp [ha', ih]

theorem sizeL_mapDelete_add {m : List (String × Page)} {k : String} {p : Page}
    (hl : mapLookup m k = some p) : sizeL (mapDelete m k) + p.size = sizeL m := by
  induction m with
  | nil => simp [mapLookup] at hl
  | cons kv rest ih =>
      obtain ⟨a, w⟩ := kv
      by_cases ha : a = k
      · subst ha
        rw [mapLookup, if_pos rfl, Option.some_inj] at hl
        subst hl
        simp only [sizeL, List.map_cons, List.sum_cons]
        have hd : mapDelete ((a, w) :: rest) a = rest := by
          simp [mapDelete]
        rw [hd]
        omega
      · rw [mapLookup, if_neg ha] at hl
        simp only [mapDelete, if_neg ha, sizeL, List.map_cons, List.sum_cons]
        have := ih hl
        simp only [sizeL] at this
        omega

theorem mem_keys_mapInsert_iff (m : List (String × Page)) (k : String) (v : Page)
    (x : String) : x ∈ (mapInsert m k v).map Prod.fst ↔ x ∈ m.map Prod.fst ∨ x = k := by
  rw [mapInsert_keys]
  by_cases h : k ∈ m.map Prod.fst
  · rw [if_pos h]
    constructor
    · exact fun hx => Or.inl hx
    · rintro (hx | rfl)
      · exact hx
      · exact h
  · rw [if_neg h]
    simp

theorem sizeL_mapInsert_le (m : List (String × Page)) (k : String) (v : Page) :
    sizeL (mapInsert m k v) ≤ sizeL m + v.size := by
  induction m with
  | nil => simp [mapInsert, sizeL]
  | cons kv rest ih =>
      obtain ⟨a, w⟩ := kv
      by_cases ha : a = k
      · subst ha
        have hd : mapInsert ((a, w) :: rest) a v = (a, v) :: rest := by
          simp [mapInsert]
        rw [hd]
        simp only [sizeL, List.map_cons, List.sum_cons]
        omega
      · simp only [mapInsert, if_neg ha, sizeL, List.map_cons, List.sum_cons]
        simp only [sizeL] at ih
        omega

/-! ## Invariant preservation -/

theorem removePage_inv {c : Cache} (h : Inv c) (u : String) :
    Inv (removePage c u) := by
  obtain ⟨hnu, hnk, hul, hlu⟩ := h
  refine ⟨removeURL_nodup hnu, ?_, ?_, ?_⟩
  · simp only [removePage, mapDelete_keys]
    exact hnk.erase u
  · intro x hx
    simp only [removePage] at hx
    rw [mem_removeURL_iff hnu] at hx
    simp only [removePage, mapDelete_keys]
    rw [hnk.mem_erase_iff]
    exact ⟨hx.1, hul x hx.2⟩
  · intro x hx
    simp only [removePage, mapDelete_keys] at hx
    rw [hnk.mem_erase_iff] at hx
    simp only [removePage]
    rw [mem_removeURL_iff hnu]
    exact ⟨hx.1, hlu x hx.2⟩

theorem removePage_limits (c : Cache) (u : String) :
    (removePage c u).maxPages = c.maxPages ∧ (removePage c u).maxSize = c.maxSize ∧
      (removePage c u).timeout = c.timeout := by
  simp [removePage]

theorem numPages_removePage_of_mem {c : Cache} {u : String}
    (h : u ∈ c.pages.map Prod.fst) :
    (removePage c u).pages.length = c.pages.length - 1 := by
  simp only [removePage]
  exact length_mapDelete_of_mem h

theorem mapDelete_of_not_mem {m : List (String × Page)} {k : String}
    (h : k ∉ m.map Prod.fst) : mapDelete m k = m := by
  induction m with
  | nil => rfl
  | cons kv rest ih =>
      obtain ⟨a, v⟩ := kv
      have ha : a ≠ k := by
        intro hh
        exact h (by simp [hh])
      simp only [mapDelete, if_neg ha, List.cons.injEq, true_and]
      exact ih (by intro hh; exact h (by simp [hh]))

theorem sizePages_removePage_le (c : Cache) (u : String) :
    sizePages (removePage c u) ≤ sizePages c := by
  simp only [sizePages, removePage]
  by_cases h : u ∈ c.pages.map Prod.fst
  · obtain ⟨p, hp⟩ := Option.isSome_iff_exists.mp ((mapLookup_isSome_iff _ _).mpr h)
    have := sizeL_mapDelete_add hp
    omega
  · rw [mapDelete_of_not_mem h]

theorem insertFinal_inv {c : Cache} (h : Inv c) (p : Page) :
    Inv (insertFinal c p) := by
  obtain ⟨hnu, hnk, hul, hlu⟩ := h
  refine ⟨?_, ?_, ?_, ?_⟩
  · simp only [insertFinal]
    rw [List.nodup_append]
    refine ⟨removeURL_nodup hnu, List.nodup_singleton _, ?_⟩
    intro x hx hx'
    rw [mem_removeURL_iff hnu] at hx
    simp at hx'
    exact hx.1 hx'
  · simp only [insertFinal]
    rw [mapInsert_keys]
    by_cases hk : p.url ∈ c.pages.map Prod.fst
    · rw [if_pos hk]
      exact hnk
    · rw [if_neg hk]
      rw [List.nodup_append]
      exact ⟨hnk, List.nodup_singleton _, by
        intro x hx hx'
        simp at hx'
        exact hk (hx' ▸ hx)⟩
  · intro x hx
    simp only [insertFinal] at hx ⊢
    rw [List.mem_append] at hx
    rw [mem_keys_mapInsert_iff]
    rcases hx with hx | hx
    · rw [mem_removeURL_iff hnu] at hx
      exact Or.inl (hul x hx.2)
    · simp at hx
      exact Or.inr hx
  · intro x hx
    simp only [insertFinal] at hx ⊢
    rw [mem_keys_mapInsert_iff] at hx
    rw [List.mem_append]
    by_cases hxp : x = p.url
    · right
      simp [hxp]
    · left
      rw [mem_removeURL_iff hnu]
      rcases hx with hx | hx
      · exact ⟨hxp, hlu x hx⟩
      · exact absurd hx hxp

/-! ## Eviction-loop specifications

Under the synchronisation invariant, each eviction loop terminates
within `pages.length` iterations (the fuel it is given), never reads the
head of an empty order record, and establishes the negation of its loop
condition. -/

theorem evictForCount_spec :
    ∀ (fuel : Nat) (c : Cache), Inv c → c.pages.length ≤ fuel →
      ∃ c', evictForCount fuel c = some c' ∧ Inv c' ∧
        c'.maxPages = c.maxPages ∧ c'.maxSize = c.maxSize ∧
        c'.timeout = c.timeout ∧ c'.pages.length ≤ c.pages.length ∧
        c'.urls ⊆ c.urls ∧ ¬(c'.maxPages ≤ numPages c' ∧ 0 < c'.maxPages) := by
  intro fuel
  induction fuel with
  | zero =>
      intro c hInv hlen
      have hp : c.pages.length = 0 := Nat.le_zero.mp hlen
      have hcond : ¬(c.maxPages ≤ numPages c ∧ 0 < c.maxPages) := by
        simp only [numPages, hp]
        intro hh
        omega
      exact ⟨c, by simp [evictForCount, hcond], hInv, rfl, rfl, rfl, le_refl _,
        fun _ hx => hx, hcond⟩
  | succ fuel ih =>
      intro c hInv hlen
      by_cases hcond : c.maxPages ≤ numPages c ∧ 0 < c.maxPages
      · have hlen1 : 1 ≤ c.pages.length := by
          have h1 := hcond.1
          have h2 := hcond.2
          simp only [numPages] at h1
          omega
        have hkey : ∃ kv, kv ∈ c.pages := by
          cases hp : c.pages with
          | nil => rw [hp] at hlen1; simp at hlen1
          | cons kv rest => exact ⟨kv, List.mem_cons_self kv rest⟩
        obtain ⟨⟨k0, p0⟩, hk0⟩ := hkey
        have hk0u : k0 ∈ c.urls := hInv.2.2.2 k0 (by
          have : (k0, p0).1 ∈ c.pages.map Prod.fst := List.mem_map_of_mem Prod.fst hk0
          exact this)
        cases hurls : c.urls with
        | nil => rw [hurls] at hk0u; cases hk0u
        | cons u rest =>
            have hu_mem_urls : u ∈ c.urls := by
              rw [hurls]
              exact List.mem_cons_self u rest
            have hu_mem_keys : u ∈ c.pages.map Prod.fst := hInv.2.2.1 u hu_mem_urls
            have hlen' : (removePage c u).pages.length ≤ fuel := by
              rw [numPages_removePage_of_mem hu_mem_keys]
              omega
            obtain ⟨c', h1, h2, h3, h4, h5, h6, h7, h8⟩ :=
              ih (removePage c u) (removePage_inv hInv u) hlen'
            refine ⟨c', ?_, h2, ?_, ?_, ?_, ?_, ?_, h8⟩
            · show evictForCount (fuel + 1) c = some c'
              unfold evictForCount
              rw [if_pos hcond, hurls]
              exact h1
            · simpa [removePage] using h3
            · simpa [removePage] using h4
            · simpa [removePage] using h5
            · rw [numPages_removePage_of_mem hu_mem_keys] at h6
              omega
            · intro x hx
              have hx' : x ∈ removeURL c.urls u := h7 hx
              rw [hurls] at hx'
              exact mem_of_mem_removeURL hx'
      · exact ⟨c, by simp [evictForCount, hcond], hInv, rfl, rfl, rfl, le_refl _,
          fun _ hx => hx, hcond⟩

theorem evictForSize_spec :
    ∀ (fuel : Nat) (c : Cache) (p : Page), Inv c → c.pages.length ≤ fuel →
      ¬(c.maxSize < (p.size : Int) ∧ 0 < c.maxSize) →
      ∃ c', evictForSize p fuel c = some c' ∧ Inv c' ∧
        c'.maxPages = c.maxPages ∧ c'.maxSize = c.maxSize ∧
        c'.timeout = c.timeout ∧ c'.pages.length ≤ c.pages.length ∧
        c'.urls ⊆ c.urls ∧
        ¬(c'.maxSize < sizePages c' + (p.size : Int) ∧ 0 < c'.maxSize) := by
  intro fuel
  induction fuel with
  | zero =>
      intro c p hInv hlen hguard
      have hp : c.pages = [] := List.length_eq_zero.mp (Nat.le_zero.mp hlen)
      have hsz : sizePages c = 0 := by
        simp [sizePages, sizeL, hp]
      have hcond : ¬(c.maxSize < sizePages c + (p.size : Int) ∧ 0 < c.maxSize) := by
        rw [hsz]
        simpa using hguard
      exact ⟨c, by simp [evictForSize, hcond], hInv, rfl, rfl, rfl, le_refl _,
        fun _ hx => hx, hcond⟩
  | succ fuel ih =>
      intro c p hInv hlen hguard
      by_cases hcond : c.maxSize < sizePages c + (p.size : Int) ∧ 0 < c.maxSize
      · have hlen1 : 1 ≤ c.pages.length := by
          rcases Nat.eq_zero_or_pos c.pages.length with hz | hpos
          · exfalso
            have hp : c.pages = [] := List.length_eq_zero.mp hz
            have hsz : sizePages c = 0 := by simp [sizePages, sizeL, hp]
            rw [hsz] at hcond
            simp at hcond
            exact hguard ⟨hcond.1, hcond.2⟩
          · exact hpos
        have hkey : ∃ kv, kv ∈ c.pages := by
          cases hp : c.pages with
          | nil => rw [hp] at hlen1; simp at hlen1
          | cons kv rest => exact ⟨kv, List.mem_cons_self kv rest⟩
        obtain ⟨⟨k0, p0⟩, hk0⟩ := hkey
        have hk0u : k0 ∈ c.urls := hInv.2.2.2 k0 (by
          have : (k0, p0).1 ∈ c.pages.map Prod.fst := List.mem_map_of_mem Prod.fst hk0
          exact this)
        cases hurls : c.urls with
        | nil => rw [hurls] at hk0u; cases hk0u
        | cons u rest =>
            have hu_mem_urls : u ∈ c.urls := by
              rw [hurls]
              exact List.mem_cons_self u rest
            have hu_mem_keys : u ∈ c.pages.map Prod.fst := hInv.2.2.1 u hu_mem_urls
            have hlen' : (removePage c u).pages.length ≤ fuel := by
              rw [numPages_removePage_of_mem hu_mem_keys]
              omega
            have hguard' : ¬((removePage c u).maxSize < (p.size : Int) ∧
                0 < (removePage c u).maxSize) := by
              simpa [removePage] using hguard
            obtain ⟨c', h1, h2, h3, h4, h5, h6, h7, h8⟩ :=
              ih (removePage c u) p (removePage_inv hInv u) hlen' hguard'
            refine ⟨c', ?_, h2, ?_, ?_, ?_, ?_, ?_, h8⟩
            · show evictForSize p (fuel + 1) c = some c'
              unfold evictForSize
              rw [if_pos hcond, hurls]
              exact h1
            · simpa [removePage] using h3
            · simpa [removePage] using h4
            · simpa [removePage] using h5
            · rw [numPages_removePage_of_mem hu_mem_keys] at h6
              omega
            · intro x hx
              have hx' : x ∈ removeURL c.urls u := h7 hx
              rw [hurls] at hx'
              exact mem_of_mem_removeURL hx'
      · exact ⟨c, by simp [evictForSize, hcond], hInv, rfl, rfl, rfl, le_refl _,
          fun _ hx => hx, hcond⟩

/-! ## The `AddPage` master specification -/

theorem addPage_spec (c : Cache) (p : Page) (hInv : Inv c) :
    ∃ c', addPage c p = some c' ∧ Inv c' ∧
      c'.maxPages = c.maxPages ∧ c'.maxSize = c.maxSize ∧ c'.timeout = c.timeout ∧
      ((p.url = "" ∨ (c.maxSize < (p.size : Int) ∧ 0 < c.maxSize)) → c' = c) ∧
      (¬(p.url = "" ∨ (c.maxSize < (p.size : Int) ∧ 0 < c.maxSize)) →
        (0 < c.maxPages → numPages c' ≤ c.maxPages) ∧
        (0 < c.maxSize → sizePages c' ≤ c.maxSize)) := by
  by_cases h1 : p.url = ""
  · exact ⟨c, by simp [addPage, h1], hInv, rfl, rfl, rfl, fun _ => rfl,
      fun hn => absurd (Or.inl h1) hn⟩
  · by_cases h2 : c.maxSize < (p.size : Int) ∧ 0 < c.maxSize
    · exact ⟨c, by simp [addPage, h1, h2], hInv, rfl, rfl, rfl, fun _ => rfl,
        fun hn => absurd (Or.inr h2) hn⟩
    · obtain ⟨c1, e1, i1, m1p, m1s, m1t, l1, u1, post1⟩ :=
        evictForCount_spec c.pages.length c hInv (le_refl _)
      have hguard1 : ¬(c1.maxSize < (p.size : Int) ∧ 0 < c1.maxSize) := by
        rw [m1s]
        exact h2
      obtain ⟨c2, e2, i2, m2p, m2s, m2t, l2, u2, post2⟩ :=
        evictForSize_spec c1.pages.length c1 p i1 (le_refl _) hguard1
      refine ⟨insertFinal c2 p, ?_, insertFinal_inv i2 p, ?_, ?_, ?_, ?_, ?_⟩
      · show addPage c p = some (insertFinal c2 p)
        simp only [addPage, if_neg h1, if_neg h2, e1, e2]
      · exact m2p.trans m1p
      · exact m2s.trans m1s
      · exact m2t.trans m1t
      · rintro (hre | hre)
        · exact absurd hre h1
        · exact absurd hre h2
      · intro _
        constructor
        · intro hmp
          have hlen := length_mapInsert_le c2.pages p.url p
          have hp1 : ¬(c.maxPages ≤ numPages c1 ∧ 0 < c.maxPages) := by
            rw [← m1p]
            exact post1
          have hgoal : numPages (insertFinal c2 p) =
              ((mapInsert c2.pages p.url p).length : Int) := rfl
          rw [hgoal]
          simp only [numPages] at hp1
          omega
        · intro hms
          have hsz := sizeL_mapInsert_le c2.pages p.url p
          have hp2 : ¬(c.maxSize < sizePages c2 + (p.size : Int) ∧ 0 < c.maxSize) := by
            rw [← m1s, ← m2s]
            exact post2
          have hgoal : sizePages (insertFinal c2 p) =
              ((sizeL (mapInsert c2.pages p.url p)) : Int) := rfl
          rw [hgoal]
          simp only [sizePages] at hp2
          omega

theorem runAdds_spec :
    ∀ (ps : List Page) (c : Cache), Inv c →
      (0 < c.maxPages → numPages c ≤ c.maxPages) →
      (0 < c.maxSize → sizePages c ≤ c.maxSize) →
      ∃ c', runAdds c ps = some c' ∧ Inv c' ∧
        c'.maxPages = c.maxPages ∧ c'.maxSize = c.maxSize ∧ c'.timeout = c.timeout ∧
        (0 < c'.maxPages → numPages c' ≤ c'.maxPages) ∧
        (0 < c'.maxSize → sizePages c' ≤ c'.maxSize) := by
  intro ps
  induction ps with
  | nil =>
      intro c hInv hbp hbs
      exact ⟨c, rfl, hInv, rfl, rfl, rfl, hbp, hbs⟩
  | cons p ps ih =>
      intro c hInv hbp hbs
      obtain ⟨c1, e1, i1, mp, ms, mt, hrej, hnrej⟩ := addPage_spec c p hInv
      have hb1p : 0 < c1.maxPages → numPages c1 ≤ c1.maxPages := by
        intro h
        rw [mp] at h ⊢
        by_cases hr : p.url = "" ∨ (c.maxSize < (p.size : Int) ∧ 0 < c.maxSize)
        · rw [hrej hr]
          exact hbp h
        · exact (hnrej hr).1 h
      have hb1s : 0 < c1.maxSize → sizePages c1 ≤ c1.maxSize := by
        intro h
        rw [ms] at h ⊢
        by_cases hr : p.url = "" ∨ (c.maxSize < (p.size : Int) ∧ 0 < c.maxSize)
        · rw [hrej hr]
          exact hbs h
        · exact (hnrej hr).2 h
      obtain ⟨c', e', i', mp', ms', mt', hbp', hbs'⟩ := ih c1 i1 hb1p hb1s
      refine ⟨c', ?_, i', mp'.trans mp, ms'.trans ms, mt'.trans mt, hbp', hbs'⟩
      show runAdds c (p :: ps) = some c'
      simp only [runAdds, e1]
      exact e'

/-! ## Frame lemmas: no operation but the setters touches the limits -/

theorem evictForCount_limits :
    ∀ (fuel : Nat) (c c' : Cache), evictForCount fuel c = some c' →
      c'.maxPages = c.maxPages ∧ c'.maxSize = c.maxSize ∧ c'.timeout = c.timeout := by
  intro fuel
  induction fuel with
  | zero =>
      intro c c' h
      simp only [evictForCount] at h
      split at h
      · simp at h
      · injection h with h
        subst h
        exact ⟨rfl, rfl, rfl⟩
  | succ fuel ih =>
      intro c c' h
      simp only [evictForCount] at h
      split at h
      · split at h
        · simp at h
        · rename_i u tail hurls
          obtain ⟨a, b, d⟩ := ih (removePage c u) c' h
          exact ⟨a, b, d⟩
      · injection h with h
        subst h
        exact ⟨rfl, rfl, rfl⟩

theorem evictForSize_limits :
    ∀ (fuel : Nat) (p : Page) (c c' : Cache), evictForSize p fuel c = some c' →
      c'.maxPages = c.maxPages ∧ c'.maxSize = c.maxSize ∧ c'.timeout = c.timeout := by
  intro fuel
  induction fuel with
  | zero =>
      intro p c c' h
      simp only [evictForSize] at h
      split at h
      · simp at h
      · injection h with h
        subst h
        exact ⟨rfl, rfl, rfl⟩
  | succ fuel ih =>
      intro p c c' h
      simp only [evictForSize] at h
      split at h
      · split at h
        · simp at h
        · rename_i u tail hurls
          obtain ⟨a, b, d⟩ := ih p (removePage c u) c' h
          exact ⟨a, b, d⟩
      · injection h with h
        subst h
        exact ⟨rfl, rfl, rfl⟩

theorem addPage_limits (c : Cache) (p : Page) (c' : Cache)
    (h : addPage c p = some c') :
    c'.maxPages = c.maxPages ∧ c'.maxSize = c.maxSize ∧ c'.timeout = c.timeout := by
  simp only [addPage] at h
  split at h
  · injection h with h
    subst h
    exact ⟨rfl, rfl, rfl⟩
  · split at h
    · injection h with h
      subst h
      exact ⟨rfl, rfl, rfl⟩
    · split at h
      · simp at h
      · rename_i c1 heq1
        split at h
        · simp at h
        · rename_i c2 heq2
          injection h with h
          subst h
          obtain ⟨a1, b1, d1⟩ := evictForCount_limits _ _ _ heq1
          obtain ⟨a2, b2, d2⟩ := evictForSize_limits _ _ _ _ heq2
          exact ⟨a2.trans a1, b2.trans b1, d2.trans d1⟩

/-! ## Claim theorems -/

/-- C1: for every sequence of `AddPage` calls executed sequentially from
the initial empty cache (with limits configured at startup), after each
call returns, if `maxPages > 0` then `Count() ≤ maxPages`, and if
`maxSize > 0` then `TotalSize() ≤ maxSize`.  (Every intermediate state
is the final state of a prefix of the call sequence, so quantifying over
all sequences covers "after each call".) -/
theorem bound_invariants_of_runAdds (mp ms : Int) (ps : List Page) (cf : Cache)
    (h : runAdds (initWith mp ms) ps = some cf) :
    (0 < mp → numPages cf ≤ mp) ∧ (0 < ms → sizePages cf ≤ ms) := by
  have hInv : Inv (initWith mp ms) :=
    ⟨List.nodup_nil, List.nodup_nil, fun u hu => absurd hu (List.not_mem_nil u),
      fun u hu => absurd hu (List.not_mem_nil u)⟩
  have hnp : numPages (initWith mp ms) = 0 := rfl
  have hsp : sizePages (initWith mp ms) = 0 := rfl
  have hbp : 0 < (initWith mp ms).maxPages →
      numPages (initWith mp ms) ≤ (initWith mp ms).maxPages := by
    intro hh
    rw [hnp]
    omega
  have hbs : 0 < (initWith mp ms).maxSize →
      sizePages (initWith mp ms) ≤ (initWith mp ms).maxSize := by
    intro hh
    rw [hsp]
    omega
  obtain ⟨c', e', i', mp', ms', mt', hbp', hbs'⟩ :=
    runAdds_spec ps (initWith mp ms) hInv hbp hbs
  rw [h] at e'
  injection e' with e'
  subst e'
  have hmpa : (initWith mp ms).maxPages = mp := rfl
  have hmsa : (initWith mp ms).maxSize = ms := rfl
  rw [hmpa] at mp'
  rw [hmsa] at ms'
  constructor
  · intro h0
    have := hbp' (by rw [mp']; exact h0)
    rw [mp'] at this
    exact this
  · intro h0
    have := hbs' (by rw [ms']; exact h0)
    rw [ms'] at this
    exact this

theorem bound_invariants_of_runAdds_witness :
    (0 < (1 : Int) → numPages ⟨[("a", ⟨"a", "x", 1, 0⟩)], ["a"], 1, 1, 0⟩ ≤ 1) ∧
    (0 < (1 : Int) → sizePages ⟨[("a", ⟨"a", "x", 1, 0⟩)], ["a"], 1, 1, 0⟩ ≤ 1) :=
  bound_invariants_of_runAdds 1 1 [⟨"a", "x", 1, 0⟩]
    ⟨[("a", ⟨"a", "x", 1, 0⟩)], ["a"], 1, 1, 0⟩ rfl

/-- C3: the synchronisation invariant — the set of identifiers in the
order record equals the set of keys of the entry table, with no
duplicates on either side — holds initially and is preserved by
`AddPage`, `RemovePage` and `ClearPages`. -/
theorem sync_invariant_preserved :
    Inv initial ∧
    ∀ c, Inv c →
      (∀ p c', addPage c p = some c' → Inv c') ∧
      (∀ url, Inv (removePage c url)) ∧ Inv (clearPages c) := by
  constructor
  · exact ⟨List.nodup_nil, List.nodup_nil, fun u hu => absurd hu (List.not_mem_nil u),
      fun u hu => absurd hu (List.not_mem_nil u)⟩
  · intro c hc
    refine ⟨?_, fun url => removePage_inv hc url, ?_⟩
    · intro p c' h
      obtain ⟨c'', e'', i'', _⟩ := addPage_spec c p hc
      rw [h] at e''
      injection e'' with e''
      subst e''
      exact i''
    · exact ⟨List.nodup_nil, List.nodup_nil, fun u hu => absurd hu (List.not_mem_nil u),
        fun u hu => absurd hu (List.not_mem_nil u)⟩

theorem sync_invariant_preserved_witness :
    Inv (removePage ⟨[("a", ⟨"a", "", 0, 0⟩), ("b", ⟨"b", "", 0, 0⟩)], ["a", "b"], 2, 0, 0⟩ "a") :=
  ((sync_invariant_preserved.2
    ⟨[("a", ⟨"a", "", 0, 0⟩), ("b", ⟨"b", "", 0, 0⟩)], ["a", "b"], 2, 0, 0⟩
    (by decide)).2.1) "a"

/-- C5: a document with an empty identifier, or one whose size exceeds
`maxSize` while `maxSize > 0`, makes `AddPage` a silent no-op: no error
is signalled and the whole state — entry table, order record, count and
total size — is returned unchanged. -/
theorem addPage_rejects_silently (c : Cache) (p : Page)
    (h : p.url = "" ∨ (0 < c.maxSize ∧ c.maxSize < (p.size : Int))) :
    addPage c p = some c := by
  by_cases hu : p.url = ""
  · simp [addPage, hu]
  · rcases h with h | h
    · exact absurd h hu
    · simp [addPage, hu, h.1, h.2]

theorem addPage_rejects_silently_witness :
    addPage ⟨[], [], 0, 5, 0⟩ ⟨"big", "123456", 6, 0⟩ = some ⟨[], [], 0, 5, 0⟩ :=
  addPage_rejects_silently ⟨[], [], 0, 5, 0⟩ ⟨"big", "123456", 6, 0⟩
    (Or.inr ⟨by decide, by decide⟩)

/-- C7: with `maxSize = 10` and an otherwise fresh cache, inserting a
document of size 6 under "a" and then one of size 6 under "b" evicts
"a", so that afterwards `GetPage "a"` misses and `GetPage "b"` hits. -/
theorem byte_size_eviction_scenario :
    ∃ cf, runAdds (initWith 0 10) [⟨"a", "", 6, 0⟩, ⟨"b", "", 6, 0⟩] = some cf ∧
      getPage cf "a" 0 = none ∧ getPage cf "b" 0 = some ⟨"b", "", 6, 0⟩ := by
  refine ⟨⟨[("b", ⟨"b", "", 6, 0⟩)], ["b"], 0, 10, 0⟩, ?_, ?_, ?_⟩ <;> rfl

/-- C8: on any state satisfying the synchronisation invariant (which all
reachable states do), `AddPage` is total: both eviction loops terminate
and never read the head of an empty order record, and the call completes
without signalling failure.  (`RemovePage`, `ClearPages`, `GetPage` and
the queries are total functions of the state by construction.) -/
theorem addPage_total_on_reachable (c : Cache) (p : Page) (hInv : Inv c) :
    ∃ c', addPage c p = some c' := by
  obtain ⟨c', e', _⟩ := addPage_spec c p hInv
  exact ⟨c', e'⟩

theorem addPage_total_on_reachable_witness :
    ∃ c', addPage ⟨[("a", ⟨"a", "", 0, 0⟩)], ["a"], 1, 0, 0⟩ ⟨"b", "", 0, 0⟩ = some c' :=
  addPage_total_on_reachable ⟨[("a", ⟨"a", "", 0, 0⟩)], ["a"], 1, 0, 0⟩ ⟨"b", "", 0, 0⟩
    (by decide)

/-- C10: `AddPage`, `RemovePage` and `ClearPages` never change the
configured limits `maxPages`, `maxSize`, `timeout`; the setters change
exactly their own limit and nothing else. -/
theorem limits_frame (c : Cache) :
    (∀ p c', addPage c p = some c' →
      c'.maxPages = c.maxPages ∧ c'.maxSize = c.maxSize ∧ c'.timeout = c.timeout) ∧
    (∀ url, (removePage c url).maxPages = c.maxPages ∧
      (removePage c url).maxSize = c.maxSize ∧
      (removePage c url).timeout = c.timeout) ∧
    ((clearPages c).maxPages = c.maxPages ∧ (clearPages c).maxSize = c.maxSize ∧
      (clearPages c).timeout = c.timeout) ∧
    (∀ m, (setMaxPages c m).maxPages = m ∧ (setMaxPages c m).maxSize = c.maxSize ∧
      (setMaxPages c m).timeout = c.timeout ∧ (setMaxPages c m).pages = c.pages ∧
      (setMaxPages c m).urls = c.urls) ∧
    (∀ m, (setMaxSize c m).maxSize = m ∧ (setMaxSize c m).maxPages = c.maxPages ∧
      (setMaxSize c m).timeout = c.timeout ∧ (setMaxSize c m).pages = c.pages ∧
      (setMaxSize c m).urls = c.urls) ∧
    (∀ t, (setTimeout c t).maxPages = c.maxPages ∧
      (setTimeout c t).maxSize = c.maxSize ∧ (setTimeout c t).pages = c.pages ∧
      (setTimeout c t).urls = c.urls) := by
  refine ⟨fun p c' h => addPage_limits c p c' h, fun url => ⟨rfl, rfl, rfl⟩,
    ⟨rfl, rfl, rfl⟩, fun m => ⟨rfl, rfl, rfl, rfl, rfl⟩,
    fun m => ⟨rfl, rfl, rfl, rfl, rfl⟩, fun t => ?_⟩
  by_cases ht : t ≤ 0
  · simp [setTimeout, ht]
  · simp [setTimeout, ht]

theorem limits_frame_witness :
    (⟨[("a", ⟨"a", "", 1, 0⟩)], ["a"], 3, 5, 0⟩ : Cache).maxPages = (initWith 3 5).maxPages ∧
    (⟨[("a", ⟨"a", "", 1, 0⟩)], ["a"], 3, 5, 0⟩ : Cache).maxSize = (initWith 3 5).maxSize ∧
    (⟨[("a", ⟨"a", "", 1, 0⟩)], ["a"], 3, 5, 0⟩ : Cache).timeout = (initWith 3 5).timeout :=
  (limits_frame (initWith 3 5)).1 ⟨"a", "", 1, 0⟩
    ⟨[("a", ⟨"a", "", 1, 0⟩)], ["a"], 3, 5, 0⟩ rfl

/-- C6: on any state with a non-negative `timeout` (all reachable states:
`timeout` starts at 0 and `SetTimeout` clamps non-positive inputs to 0),
`GetPage` returns the stored document exactly when the identifier is in
the entry table and either the TTL is unset (`timeout ≤ 0`) or the
elapsed time since the document's creation is below the TTL; a stale
entry makes `GetPage` miss but is not removed — it still occupies its
entry-table slot (hence still counts towards `NumPages`/`SizePages`,
which are computed from the same unchanged table). -/
theorem getPage_staleness_visibility (c : Cache) (url : String) (now : Int)
    (ht : 0 ≤ c.timeout) :
    (∀ p, getPage c url now = some p ↔
      (mapLookup c.pages url = some p ∧
        (c.timeout ≤ 0 ∨ now - p.madeAt < c.timeout))) ∧
    (∀ p, mapLookup c.pages url = some p →
      ¬(c.timeout ≤ 0 ∨ now - p.madeAt < c.timeout) →
      getPage c url now = none ∧ (mapLookup c.pages url).isSome) := by
  constructor
  · intro p
    unfold getPage
    cases hl : mapLookup c.pages url with
    | none => simp
    | some q =>
        have hred : (match some q with
            | some p => if c.timeout = 0 ∨ now - p.madeAt < c.timeout then some p else none
            | none => none) =
            (if c.timeout = 0 ∨ now - q.madeAt < c.timeout then some q else none) := rfl
        rw [hred]
        by_cases hc : c.timeout = 0 ∨ now - q.madeAt < c.timeout
        · rw [if_pos hc]
          constructor
          · intro h
            injection h with h
            subst h
            refine ⟨rfl, ?_⟩
            rcases hc with hc | hc
            · exact Or.inl (le_of_eq hc)
            · exact Or.inr hc
          · rintro ⟨h1, _⟩
            injection h1 with h1
            rw [h1]
        · rw [if_neg hc]
          constructor
          · intro h
            exact absurd h (by simp)
          · rintro ⟨h1, h2⟩
            injection h1 with h1
            subst h1
            exfalso
            apply hc
            rcases h2 with h2 | h2
            · exact Or.inl (by omega)
            · exact Or.inr h2
  · intro p hl hst
    constructor
    · simp only [getPage, hl]
      rw [if_neg ?_]
      intro hc
      apply hst
      rcases hc with hc | hc
      · exact Or.inl (le_of_eq hc)
      · exact Or.inr hc
    · rw [hl]
      rfl

theorem getPage_staleness_visibility_witness :
    getPage ⟨[("x", ⟨"x", "hi", 2, 0⟩)], ["x"], 0, 0, 0⟩ "x" 5 = some ⟨"x", "hi", 2, 0⟩ :=
  ((getPage_staleness_visibility ⟨[("x", ⟨"x", "hi", 2, 0⟩)], ["x"], 0, 0, 0⟩ "x" 5
    (by decide)).1 ⟨"x", "hi", 2, 0⟩).mpr ⟨rfl, Or.inl (by decide)⟩

theorem evictForCount_noop (fuel : Nat) (c : Cache)
    (h : ¬(c.maxPages ≤ numPages c ∧ 0 < c.maxPages)) :
    evictForCount fuel c = some c := by
  cases fuel <;> simp [evictForCount, h]

theorem evictForSize_noop (fuel : Nat) (c : Cache) (p : Page)
    (h : ¬(c.maxSize < sizePages c + (p.size : Int) ∧ 0 < c.maxSize)) :
    evictForSize p fuel c = some c := by
  cases fuel <;> simp [evictForSize, h]

/-- C4 (amended): for every in-sync cache state containing `pB.url`
(non-empty), inserting a new document `pB` under that identifier leaves
`Count()` unchanged, makes a subsequent fresh `GetPage` return `pB`, and
relocates the identifier to the most-recent (last) position of the order
record — provided the insertion itself does not trigger an eviction
(count below `maxPages` or `maxPages ≤ 0`, and total size plus `pB.size`
within `maxSize` or `maxSize ≤ 0`).  When an eviction does fire, the
entry count can change (see the counterexample). -/
theorem overwrite_semantics (c : Cache) (pB : Page) (now : Int)
    (hne : pB.url ≠ "")
    (hmem : (mapLookup c.pages pB.url).isSome)
    (hnc : ¬(c.maxPages ≤ numPages c ∧ 0 < c.maxPages))
    (hns : ¬(c.maxSize < sizePages c + (pB.size : Int) ∧ 0 < c.maxSize))
    (hfresh : c.timeout = 0 ∨ now - pB.madeAt < c.timeout) :
    ∃ c', addPage c pB = some c' ∧
      numPages c' = numPages c ∧
      getPage c' pB.url now = some pB ∧
      c'.urls.getLast? = some pB.url := by
  have hsz0 : 0 ≤ sizePages c := Int.natCast_nonneg _
  have hguard : ¬(c.maxSize < (pB.size : Int) ∧ 0 < c.maxSize) := by
    rintro ⟨h1, h2⟩
    exact hns ⟨by omega, h2⟩
  have heq : addPage c pB = some (insertFinal c pB) := by
    simp only [addPage, if_neg hne, if_neg hguard,
      evictForCount_noop c.pages.length c hnc, evictForSize_noop c.pages.length c pB hns]
  refine ⟨insertFinal c pB, heq, ?_, ?_, ?_⟩
  · have hm : pB.url ∈ c.pages.map Prod.fst := (mapLookup_isSome_iff _ _).mp hmem
    show ((mapInsert c.pages pB.url pB).length : Int) = (c.pages.length : Int)
    rw [length_mapInsert_of_mem _ hm]
  · simp only [getPage]
    have hl : mapLookup (insertFinal c pB).pages pB.url = some pB := by
      show mapLookup (mapInsert c.pages pB.url pB) pB.url = some pB
      exact mapLookup_mapInsert_self _ _ _
    simp only [hl]
    have htm : (insertFinal c pB).timeout = c.timeout := rfl
    rw [htm, if_pos hfresh]
  · show (removeURL c.urls pB.url ++ [pB.url]).getLast? = some pB.url
    exact List.getLast?_concat _

/-- C4 counterexample: with `maxPages = 2` and the (reachable) cache
state holding "a" and "x", re-inserting a new document under "x"
triggers the count eviction first, and `Count()` drops from 2 to 1 — so
the claim's "Count() unchanged for every cache state containing x" is
false. -/
theorem overwrite_semantics_counterexample :
    (mapLookup (⟨[("a", ⟨"a", "", 0, 0⟩), ("x", ⟨"x", "A", 0, 0⟩)], ["a", "x"],
        2, 0, 0⟩ : Cache).pages "x").isSome ∧
    addPage ⟨[("a", ⟨"a", "", 0, 0⟩), ("x", ⟨"x", "A", 0, 0⟩)], ["a", "x"], 2, 0, 0⟩
        ⟨"x", "B", 0, 0⟩ =
      some ⟨[("x", ⟨"x", "B", 0, 0⟩)], ["x"], 2, 0, 0⟩ ∧
    numPages ⟨[("a", ⟨"a", "", 0, 0⟩), ("x", ⟨"x", "A", 0, 0⟩)], ["a", "x"], 2, 0, 0⟩ = 2 ∧
    numPages ⟨[("x", ⟨"x", "B", 0, 0⟩)], ["x"], 2, 0, 0⟩ = 1 := by
  refine ⟨?_, ?_, ?_, ?_⟩ <;> rfl

theorem overwrite_semantics_witness :
    ∃ c', addPage ⟨[("x", ⟨"x", "A", 1, 0⟩)], ["x"], 0, 0, 0⟩ ⟨"x", "B", 1, 5⟩ = some c' ∧
      numPages c' = numPages (⟨[("x", ⟨"x", "A", 1, 0⟩)], ["x"], 0, 0, 0⟩ : Cache) ∧
      getPage c' "x" 5 = some ⟨"x", "B", 1, 5⟩ ∧
      c'.urls.getLast? = some "x" :=
  overwrite_semantics ⟨[("x", ⟨"x", "A", 1, 0⟩)], ["x"], 0, 0, 0⟩ ⟨"x", "B", 1, 5⟩ 5
    (by decide) (by decide) (by decide) (by decide) (Or.inl rfl)

/-- C2 (amended): after every public operation the order record carries
exactly the current identifiers (see the synchronisation invariant), a
plain lookup changes nothing, and every eviction performed by `AddPage`
removes the current head of the order record: if an admissible insertion
triggers the count eviction, or triggers the size eviction with the
count condition off, the original head `u` (when distinct from the
inserted URL) is gone from both structures afterwards.  However, because
removal swaps the last identifier into the removed slot, the order
record is NOT kept in oldest-first insertion order, and eviction is NOT
first-in-first-out (see the counterexample). -/
theorem eviction_takes_head (c : Cache) (p : Page) (u : String) (c' : Cache)
    (hInv : Inv c)
    (hne : p.url ≠ "")
    (hguard : ¬(c.maxSize < (p.size : Int) ∧ 0 < c.maxSize))
    (hhead : c.urls.head? = some u)
    (hup : u ≠ p.url)
    (htrig : (c.maxPages ≤ numPages c ∧ 0 < c.maxPages) ∨
      (¬(c.maxPages ≤ numPages c ∧ 0 < c.maxPages) ∧
        (c.maxSize < sizePages c + (p.size : Int) ∧ 0 < c.maxSize)))
    (hadd : addPage c p = some c') :
    u ∉ c'.urls ∧ mapLookup c'.pages u = none := by
  cases hu : c.urls with
  | nil =>
      rw [hu] at hhead
      simp at hhead
  | cons u0 rest =>
      rw [hu] at hhead
      simp only [List.head?_cons, Option.some_inj] at hhead
      subst hhead
      have hu_mem : u0 ∈ c.urls := by
        rw [hu]
        exact List.mem_cons_self _ _
      have hu_keys : u0 ∈ c.pages.map Prod.fst := hInv.2.2.1 u0 hu_mem
      have hInv_d : Inv (removePage c u0) := removePage_inv hInv u0
      have hu_not_d : u0 ∉ (removePage c u0).urls := by
        show u0 ∉ removeURL c.urls u0
        rw [mem_removeURL_iff hInv.1]
        rintro ⟨hne0, _⟩
        exact hne0 rfl
      have hlen_d : (removePage c u0).pages.length = c.pages.length - 1 :=
        numPages_removePage_of_mem hu_keys
      obtain ⟨n, hn⟩ : ∃ n, c.pages.length = n + 1 := by
        have h1 : 0 < (c.pages.map Prod.fst).length :=
          List.length_pos.mpr (List.ne_nil_of_mem hu_keys)
        rw [List.length_map] at h1
        exact ⟨c.pages.length - 1, by omega⟩
      rcases htrig with hcase | ⟨hnc, hsc⟩
      · have e0 : evictForCount c.pages.length c = evictForCount n (removePage c u0) := by
          rw [hn]
          simp only [evictForCount]
          rw [if_pos hcase, hu]
        obtain ⟨c1, e1, i1, m1p, m1s, m1t, l1, u1, post1⟩ :=
          evictForCount_spec n (removePage c u0) hInv_d (by omega)
        have hu_not_c1 : u0 ∉ c1.urls := fun hx => hu_not_d (u1 hx)
        have hguard1 : ¬(c1.maxSize < (p.size : Int) ∧ 0 < c1.maxSize) := by
          rw [m1s]
          exact hguard
        obtain ⟨c2, e2, i2, m2p, m2s, m2t, l2, u2, post2⟩ :=
          evictForSize_spec c1.pages.length c1 p i1 (le_refl _) hguard1
        have hu_not_c2 : u0 ∉ c2.urls := fun hx => hu_not_c1 (u2 hx)
        have heq : addPage c p = some (insertFinal c2 p) := by
          simp only [addPage, if_neg hne, if_neg hguard, e0, e1, e2]
        rw [heq] at hadd
        injection hadd with hadd
        subst hadd
        have hfin : u0 ∉ (insertFinal c2 p).urls := by
          show u0 ∉ removeURL c2.urls p.url ++ [p.url]
          rw [List.mem_append]
          rintro (hx | hx)
          · exact hu_not_c2 (mem_of_mem_removeURL hx)
          · simp at hx
            exact hup hx
        refine ⟨hfin, ?_⟩
        rw [mapLookup_eq_none_iff]
        intro hx
        exact hfin ((insertFinal_inv i2 p).2.2.2 u0 hx)
      · have e0 : evictForCount c.pages.length c = some c := evictForCount_noop _ _ hnc
        have e0' : evictForSize p c.pages.length c =
            evictForSize p n (removePage c u0) := by
          rw [hn]
          simp only [evictForSize]
          rw [if_pos hsc, hu]
        have hguard_d : ¬((removePage c u0).maxSize < (p.size : Int) ∧
            0 < (removePage c u0).maxSize) := hguard
        obtain ⟨c2, e2, i2, m2p, m2s, m2t, l2, u2, post2⟩ :=
          evictForSize_spec n (removePage c u0) p hInv_d (by omega) hguard_d
        have hu_not_c2 : u0 ∉ c2.urls := fun hx => hu_not_d (u2 hx)
        have heq : addPage c p = some (insertFinal c2 p) := by
          simp only [addPage, if_neg hne, if_neg hguard, e0, e0', e2]
        rw [heq] at hadd
        injection hadd with hadd
        subst hadd
        have hfin : u0 ∉ (insertFinal c2 p).urls := by
          show u0 ∉ removeURL c2.urls p.url ++ [p.url]
          rw [List.mem_append]
          rintro (hx | hx)
          · exact hu_not_c2 (mem_of_mem_removeURL hx)
          · simp at hx
            exact hup hx
        refine ⟨hfin, ?_⟩
        rw [mapLookup_eq_none_iff]
        intro hx
        exact hfin ((insertFinal_inv i2 p).2.2.2 u0 hx)

/-- C2 counterexample: with `maxPages = 3`, inserting "a","b","c","d"
from the empty cache leaves the order record `["c","b","d"]`, not the
insertion order `["b","c","d"]` of the surviving identifiers; and one
more insertion "e" evicts "c" even though "b" is the oldest surviving
identifier — so the order record is not oldest-first and eviction is not
first-in-first-out, refuting the claim as stated. -/
theorem fifo_order_counterexample :
    runAdds (initWith 3 0)
        [⟨"a", "", 0, 0⟩, ⟨"b", "", 0, 0⟩, ⟨"c", "", 0, 0⟩, ⟨"d", "", 0, 0⟩] =
      some ⟨[("b", ⟨"b", "", 0, 0⟩), ("c", ⟨"c", "", 0, 0⟩), ("d", ⟨"d", "", 0, 0⟩)],
        ["c", "b", "d"], 3, 0, 0⟩ ∧
    (["c", "b", "d"] : List String) ≠ ["b", "c", "d"] ∧
    runAdds (initWith 3 0)
        [⟨"a", "", 0, 0⟩, ⟨"b", "", 0, 0⟩, ⟨"c", "", 0, 0⟩, ⟨"d", "", 0, 0⟩,
          ⟨"e", "", 0, 0⟩] =
      some ⟨[("b", ⟨"b", "", 0, 0⟩), ("d", ⟨"d", "", 0, 0⟩), ("e", ⟨"e", "", 0, 0⟩)],
        ["d", "b", "e"], 3, 0, 0⟩ ∧
    mapLookup [("b", ⟨"b", "", 0, 0⟩), ("d", ⟨"d", "", 0, 0⟩), ("e", ⟨"e", "", 0, 0⟩)]
        "b" = some ⟨"b", "", 0, 0⟩ ∧
    mapLookup [("b", ⟨"b", "", 0, 0⟩), ("d", ⟨"d", "", 0, 0⟩), ("e", ⟨"e", "", 0, 0⟩)]
        "c" = none := by
  refine ⟨?_, ?_, ?_, ?_, ?_⟩
  · rfl
  · decide
  · rfl
  · rfl
  · rfl

theorem eviction_takes_head_witness :
    "a" ∉ (⟨[("b", ⟨"b", "", 0, 0⟩)], ["b"], 1, 0, 0⟩ : Cache).urls ∧
    mapLookup (⟨[("b", ⟨"b", "", 0, 0⟩)], ["b"], 1, 0, 0⟩ : Cache).pages "a" = none :=
  eviction_takes_head ⟨[("a", ⟨"a", "", 0, 0⟩)], ["a"], 1, 0, 0⟩ ⟨"b", "", 0, 0⟩ "a"
    ⟨[("b", ⟨"b", "", 0, 0⟩)], ["b"], 1, 0, 0⟩ (by decide) (by decide) (by decide)
    rfl (by decide) (Or.inl (by decide)) rfl

/-! ## Lock traces

`mu` is the package's reader/writer mutex.  Each public operation is
re-embedded with the sequence of lock events it performs, in program
order, plus (for `AddPage`) a counter of the evictions it performs.
`NumPages`/`SizePages`/`GetPage` take the shared lock; `RemovePage` and
`ClearPages` take the exclusive lock; `AddPage` evaluates its loop
conditions through `NumPages`/`SizePages` and evicts through the public
`RemovePage`, acquiring the exclusive lock itself only around the final
map/order-record update. -/

inductive LockEv where
  | rlock
  | runlock
  | wlock
  | wunlock
  deriving Repr, DecidableEq

/-- `NumPages()` with its lock trace (`mu.RLock(); defer mu.RUnlock()`). -/
def numPagesT (c : Cache) : Int × List LockEv :=
  (numPages c, [LockEv.rlock, LockEv.runlock])

/-- `SizePages()` with its lock trace. -/
def sizePagesT (c : Cache) : Int × List LockEv :=
  (sizePages c, [LockEv.rlock, LockEv.runlock])

/-- `GetPage` with its lock trace. -/
def getPageT (c : Cache) (url : String) (now : Int) : Option Page × List LockEv :=
  (getPage c url now, [LockEv.rlock, LockEv.runlock])

/-- `RemovePage` with its lock trace (`mu.Lock(); defer mu.Unlock()`). -/
def removePageT (c : Cache) (url : String) : Cache × List LockEv :=
  (removePage c url, [LockEv.wlock, LockEv.wunlock])

/-- `ClearPages` with its lock trace. -/
def clearPagesT (c : Cache) : Cache × List LockEv :=
  (clearPages c, [LockEv.wlock, LockEv.wunlock])

/-- The count eviction loop, traced: every evaluation of the condition
calls `NumPages()` (Go's `&&` evaluates its left operand first), and
every eviction calls the public `RemovePage`.  The third component
counts the evictions. -/
def evictForCountT : Nat → Cache → Option Cache × List LockEv × Nat
  | 0, c =>
      if c.maxPages ≤ (numPagesT c).1 ∧ 0 < c.maxPages then (none, (numPagesT c).2, 0)
      else (some c, (numPagesT c).2, 0)
  | fuel + 1, c =>
      if c.maxPages ≤ (numPagesT c).1 ∧ 0 < c.maxPages then
        match c.urls with
        | [] => (none, (numPagesT c).2, 0)
        | u :: _ =>
            let rr := removePageT c u
            let rc := evictForCountT fuel rr.1
            (rc.1, (numPagesT c).2 ++ rr.2 ++ rc.2.1, rc.2.2 + 1)
      else (some c, (numPagesT c).2, 0)

/-- The size eviction loop, traced. -/
def evictForSizeT (p : Page) : Nat → Cache → Option Cache × List LockEv × Nat
  | 0, c =>
      if c.maxSize < (sizePagesT c).1 + (p.size : Int) ∧ 0 < c.maxSize then
        (none, (sizePagesT c).2, 0)
      else (some c, (sizePagesT c).2, 0)
  | fuel + 1, c =>
      if c.maxSize < (sizePagesT c).1 + (p.size : Int) ∧ 0 < c.maxSize then
        match c.urls with
        | [] => (none, (sizePagesT c).2, 0)
        | u :: _ =>
            let rr := removePageT c u
            let rc := evictForSizeT p fuel rr.1
            (rc.1, (sizePagesT c).2 ++ rr.2 ++ rc.2.1, rc.2.2 + 1)
      else (some c, (sizePagesT c).2, 0)

/-- `AddPage`, traced: the two eviction loops run before `AddPage`
acquires the exclusive lock; only the final update runs under it. -/
def addPageT (c : Cache) (p : Page) : Option Cache × List LockEv × Nat :=
  if p.url = "" then (some c, [], 0)
  else if c.maxSize < (p.size : Int) ∧ 0 < c.maxSize then (some c, [], 0)
  else
    let r1 := evictForCountT c.pages.length c
    match r1.1 with
    | none => (none, r1.2.1, r1.2.2)
    | some c1 =>
        let r2 := evictForSizeT p c1.pages.length c1
        match r2.1 with
        | none => (none, r1.2.1 ++ r2.2.1, r1.2.2 + r2.2.2)
        | some c2 =>
            (some (insertFinal c2 p),
              r1.2.1 ++ r2.2.1 ++ [LockEv.wlock, LockEv.wunlock],
              r1.2.2 + r2.2.2)

theorem evictForCountT_fst :
    ∀ (fuel : Nat) (c : Cache), (evictForCountT fuel c).1 = evictForCount fuel c := by
  intro fuel
  induction fuel with
  | zero =>
      intro c
      by_cases h : c.maxPages ≤ numPages c ∧ 0 < c.maxPages <;>
        simp [evictForCountT, evictForCount, numPagesT, h]
  | succ fuel ih =>
      intro c
      by_cases h : c.maxPages ≤ numPages c ∧ 0 < c.maxPages
      · cases hu : c.urls with
        | nil => simp [evictForCountT, evictForCount, numPagesT, h, hu]
        | cons u rest =>
            simp only [evictForCountT, evictForCount, numPagesT, h, if_true, hu,
              if_pos h]
            exact ih (removePage c u)
      · simp [evictForCountT, evictForCount, numPagesT, h]

theorem evictForSizeT_fst :
    ∀ (fuel : Nat) (p : Page) (c : Cache),
      (evictForSizeT p fuel c).1 = evictForSize p fuel c := by
  intro fuel
  induction fuel with
  | zero =>
      intro p c
      by_cases h : c.maxSize < sizePages c + (p.size : Int) ∧ 0 < c.maxSize <;>
        simp [evictForSizeT, evictForSize, sizePagesT, h]
  | succ fuel ih =>
      intro p c
      by_cases h : c.maxSize < sizePages c + (p.size : Int) ∧ 0 < c.maxSize
      · cases hu : c.urls with
        | nil => simp [evictForSizeT, evictForSize, sizePagesT, h, hu]
        | cons u rest =>
            simp only [evictForSizeT, evictForSize, sizePagesT, h, if_true, hu,
              if_pos h]
            exact ih p (removePage c u)
      · simp [evictForSizeT, evictForSize, sizePagesT, h]

theorem addPageT_fst (c : Cache) (p : Page) : (addPageT c p).1 = addPage c p := by
  by_cases h1 : p.url = ""
  · simp [addPageT, addPage, h1]
  · by_cases h2 : c.maxSize < (p.size : Int) ∧ 0 < c.maxSize
    · simp [addPageT, addPage, h1, h2]
    · simp only [addPageT, addPage, if_neg h1, if_neg h2]
      rw [← evictForCountT_fst]
      cases hr1 : (evictForCountT c.pages.length c).1 with
      | none => simp
      | some c1 =>
          simp only
          rw [← evictForSizeT_fst]
          cases hr2 : (evictForSizeT p c1.pages.length c1).1 with
          | none => simp
          | some c2 => simp

theorem evictForCountT_counts :
    ∀ (fuel : Nat) (c : Cache),
      (evictForCountT fuel c).2.1.count LockEv.wlock = (evictForCountT fuel c).2.2 ∧
      (evictForCountT fuel c).2.1.count LockEv.rlock =
        (evictForCountT fuel c).2.2 + 1 := by
  intro fuel
  induction fuel with
  | zero =>
      intro c
      by_cases h : c.maxPages ≤ (numPagesT c).1 ∧ 0 < c.maxPages
      · have heq1 : (evictForCountT 0 c).2.1 = [LockEv.rlock, LockEv.runlock] := by
          simp only [evictForCountT]
          rw [if_pos h]; all_goals rfl
        have heq2 : (evictForCountT 0 c).2.2 = 0 := by
          simp only [evictForCountT]
          rw [if_pos h]
        rw [heq1, heq2]
        exact ⟨by decide, by decide⟩
      · have heq1 : (evictForCountT 0 c).2.1 = [LockEv.rlock, LockEv.runlock] := by
          simp only [evictForCountT]
          rw [if_neg h]; all_goals rfl
        have heq2 : (evictForCountT 0 c).2.2 = 0 := by
          simp only [evictForCountT]
          rw [if_neg h]
        rw [heq1, heq2]
        exact ⟨by decide, by decide⟩
  | succ fuel ih =>
      intro c
      by_cases h : c.maxPages ≤ (numPagesT c).1 ∧ 0 < c.maxPages
      · cases hu : c.urls with
        | nil =>
            have heq1 : (evictForCountT (fuel + 1) c).2.1 =
                [LockEv.rlock, LockEv.runlock] := by
              simp only [evictForCountT]
              rw [if_pos h, hu]; all_goals rfl
            have heq2 : (evictForCountT (fuel + 1) c).2.2 = 0 := by
              simp only [evictForCountT]
              rw [if_pos h, hu]
            rw [heq1, heq2]
            exact ⟨by decide, by decide⟩
        | cons u rest =>
            have heq1 : (evictForCountT (fuel + 1) c).2.1 =
                [LockEv.rlock, LockEv.runlock] ++ [LockEv.wlock, LockEv.wunlock] ++
                  (evictForCountT fuel (removePage c u)).2.1 := by
              simp only [evictForCountT]
              rw [if_pos h, hu]; all_goals rfl
            have heq2 : (evictForCountT (fuel + 1) c).2.2 =
                (evictForCountT fuel (removePage c u)).2.2 + 1 := by
              simp only [evictForCountT]
              rw [if_pos h, hu]; all_goals rfl
            rw [heq1, heq2]
            have hih := ih (removePage c u)
            have e1 : List.count LockEv.wlock [LockEv.rlock, LockEv.runlock] = 0 := by
              decide
            have e2 : List.count LockEv.wlock [LockEv.wlock, LockEv.wunlock] = 1 := by
              decide
            have e3 : List.count LockEv.rlock [LockEv.rlock, LockEv.runlock] = 1 := by
              decide
            have e4 : List.count LockEv.rlock [LockEv.wlock, LockEv.wunlock] = 0 := by
              decide
            simp only [List.count_append, e1, e2, e3, e4]
            omega
      · have heq1 : (evictForCountT (fuel + 1) c).2.1 =
            [LockEv.rlock, LockEv.runlock] := by
          simp only [evictForCountT]
          rw [if_neg h]; all_goals rfl
        have heq2 : (evictForCountT (fuel + 1) c).2.2 = 0 := by
          simp only [evictForCountT]
          rw [if_neg h]
        rw [heq1, heq2]
        exact ⟨by decide, by decide⟩

theorem evictForSizeT_counts :
    ∀ (fuel : Nat) (p : Page) (c : Cache),
      (evictForSizeT p fuel c).2.1.count LockEv.wlock = (evictForSizeT p fuel c).2.2 ∧
      (evictForSizeT p fuel c).2.1.count LockEv.rlock =
        (evictForSizeT p fuel c).2.2 + 1 := by
  intro fuel
  induction fuel with
  | zero =>
      intro p c
      by_cases h : c.maxSize < (sizePagesT c).1 + (p.size : Int) ∧ 0 < c.maxSize
      · have heq1 : (evictForSizeT p 0 c).2.1 = [LockEv.rlock, LockEv.runlock] := by
          simp only [evictForSizeT]
          rw [if_pos h]; all_goals rfl
        have heq2 : (evictForSizeT p 0 c).2.2 = 0 := by
          simp only [evictForSizeT]
          rw [if_pos h]
        rw [heq1, heq2]
        exact ⟨by decide, by decide⟩
      · have heq1 : (evictForSizeT p 0 c).2.1 = [LockEv.rlock, LockEv.runlock] := by
          simp only [evictForSizeT]
          rw [if_neg h]; all_goals rfl
        have heq2 : (evictForSizeT p 0 c).2.2 = 0 := by
          simp only [evictForSizeT]
          rw [if_neg h]
        rw [heq1, heq2]
        exact ⟨by decide, by decide⟩
  | succ fuel ih =>
      intro p c
      by_cases h : c.maxSize < (sizePagesT c).1 + (p.size : Int) ∧ 0 < c.maxSize
      · cases hu : c.urls with
        | nil =>
            have heq1 : (evictForSizeT p (fuel + 1) c).2.1 =
                [LockEv.rlock, LockEv.runlock] := by
              simp only [evictForSizeT]
              rw [if_pos h, hu]; all_goals rfl
            have heq2 : (evictForSizeT p (fuel + 1) c).2.2 = 0 := by
              simp only [evictForSizeT]
              rw [if_pos h, hu]
            rw [heq1, heq2]
            exact ⟨by decide, by decide⟩
        | cons u rest =>
            have heq1 : (evictForSizeT p (fuel + 1) c).2.1 =
                [LockEv.rlock, LockEv.runlock] ++ [LockEv.wlock, LockEv.wunlock] ++
                  (evictForSizeT p fuel (removePage c u)).2.1 := by
              simp only [evictForSizeT]
              rw [if_pos h, hu]; all_goals rfl
            have heq2 : (evictForSizeT p (fuel + 1) c).2.2 =
                (evictForSizeT p fuel (removePage c u)).2.2 + 1 := by
              simp only [evictForSizeT]
              rw [if_pos h, hu]; all_goals rfl
            rw [heq1, heq2]
            have hih := ih p (removePage c u)
            have e1 : List.count LockEv.wlock [LockEv.rlock, LockEv.runlock] = 0 := by
              decide
            have e2 : List.count LockEv.wlock [LockEv.wlock, LockEv.wunlock] = 1 := by
              decide
            have e3 : List.count LockEv.rlock [LockEv.rlock, LockEv.runlock] = 1 := by
              decide
            have e4 : List.count LockEv.rlock [LockEv.wlock, LockEv.wunlock] = 0 := by
              decide
            simp only [List.count_append, e1, e2, e3, e4]
            omega
      · have heq1 : (evictForSizeT p (fuel + 1) c).2.1 =
            [LockEv.rlock, LockEv.runlock] := by
          simp only [evictForSizeT]
          rw [if_neg h]; all_goals rfl
        have heq2 : (evictForSizeT p (fuel + 1) c).2.2 = 0 := by
          simp only [evictForSizeT]
          rw [if_neg h]
        rw [heq1, heq2]
        exact ⟨by decide, by decide⟩

/-- C9 (amended): `RemovePage` and `ClearPages` each run under a single
exclusive-lock acquisition and `GetPage`, `NumPages`, `SizePages` under
a single shared-lock acquisition; but `AddPage` does NOT execute under
one exclusive lock: it runs its whole eviction phase before acquiring
its own lock, evaluating each loop condition under a shared lock (via
`NumPages`/`SizePages`) and performing each of its `k` evictions through
the public, lock-acquiring `RemovePage` — so a non-rejected `AddPage`
acquires the exclusive lock `k + 1` times (once per eviction plus once
for the final update, which is the trailing `wlock, wunlock` pair) and
the shared lock `k + 2` times. -/
theorem lock_discipline (c : Cache) (p : Page) (c' : Cache) (tr : List LockEv)
    (k : Nat)
    (hne : p.url ≠ "")
    (hguard : ¬(c.maxSize < (p.size : Int) ∧ 0 < c.maxSize))
    (h : addPageT c p = (some c', tr, k)) :
    (∃ pre, tr = pre ++ [LockEv.wlock, LockEv.wunlock] ∧
      pre.count LockEv.wlock = k ∧ pre.count LockEv.rlock = k + 2) ∧
    tr.count LockEv.wlock = k + 1 ∧
    (∀ url, (removePageT c url).2 = [LockEv.wlock, LockEv.wunlock]) ∧
    (clearPagesT c).2 = [LockEv.wlock, LockEv.wunlock] ∧
    (∀ url now, (getPageT c url now).2 = [LockEv.rlock, LockEv.runlock]) ∧
    (numPagesT c).2 = [LockEv.rlock, LockEv.runlock] ∧
    (sizePagesT c).2 = [LockEv.rlock, LockEv.runlock] := by
  simp only [addPageT, if_neg hne, if_neg hguard] at h
  split at h
  · simp at h
  · rename_i c1 hr1
    split at h
    · simp at h
    · rename_i c2 hr2
      simp only [Prod.mk.injEq, Option.some_inj] at h
      obtain ⟨-, htr, hk⟩ := h
      have hc1 := evictForCountT_counts c.pages.length c
      have hc2 := evictForSizeT_counts c1.pages.length p c1
      refine ⟨⟨(evictForCountT c.pages.length c).2.1 ++
          (evictForSizeT p c1.pages.length c1).2.1, ?_, ?_, ?_⟩, ?_,
        fun _ => rfl, rfl, fun _ _ => rfl, rfl, rfl⟩
      · rw [← htr]
      · rw [List.count_append]
        omega
      · rw [List.count_append]
        omega
      · rw [← htr]
        simp only [List.count_append]
        have e2 : List.count LockEv.wlock [LockEv.wlock, LockEv.wunlock] = 1 := by
          decide
        rw [e2]
        omega

/-- C9 counterexample: with `maxPages = 1` and one page cached,
inserting a second page makes `AddPage` acquire the exclusive lock
twice — once inside the public `RemovePage` it calls to evict, once for
its own final update — and it holds no lock at all during the condition
checks (shared acquisitions), refuting "Insert executes entirely under a
single exclusive lock whose evictions do not re-acquire it". -/
theorem lock_discipline_counterexample :
    addPageT ⟨[("a", ⟨"a", "", 0, 0⟩)], ["a"], 1, 0, 0⟩ ⟨"b", "", 0, 0⟩ =
      (some ⟨[("b", ⟨"b", "", 0, 0⟩)], ["b"], 1, 0, 0⟩,
        [LockEv.rlock, LockEv.runlock, LockEv.wlock, LockEv.wunlock, LockEv.rlock,
          LockEv.runlock, LockEv.rlock, LockEv.runlock, LockEv.wlock,
          LockEv.wunlock], 1) ∧
    [LockEv.rlock, LockEv.runlock, LockEv.wlock, LockEv.wunlock, LockEv.rlock,
      LockEv.runlock, LockEv.rlock, LockEv.runlock, LockEv.wlock,
      LockEv.wunlock].count LockEv.wlock = 2 ∧
    (2 : Nat) ≠ 1 := by
  refine ⟨rfl, by decide, by decide⟩

theorem lock_discipline_witness :
    (∃ pre, ([LockEv.rlock, LockEv.runlock, LockEv.wlock, LockEv.wunlock,
        LockEv.rlock, LockEv.runlock, LockEv.rlock, LockEv.runlock, LockEv.wlock,
        LockEv.wunlock] : List LockEv) = pre ++ [LockEv.wlock, LockEv.wunlock] ∧
      pre.count LockEv.wlock = 1 ∧ pre.count LockEv.rlock = 1 + 2) ∧
    ([LockEv.rlock, LockEv.runlock, LockEv.wlock, LockEv.wunlock, LockEv.rlock,
      LockEv.runlock, LockEv.rlock, LockEv.runlock, LockEv.wlock,
      LockEv.wunlock] : List LockEv).count LockEv.wlock = 1 + 1 ∧
    (∀ url, (removePageT ⟨[("a", ⟨"a", "", 0, 0⟩)], ["a"], 1, 0, 0⟩ url).2 =
      [LockEv.wlock, LockEv.wunlock]) ∧
    (clearPagesT ⟨[("a", ⟨"a", "", 0, 0⟩)], ["a"], 1, 0, 0⟩).2 =
      [LockEv.wlock, LockEv.wunlock] ∧
    (∀ url now, (getPageT ⟨[("a", ⟨"a", "", 0, 0⟩)], ["a"], 1, 0, 0⟩ url now).2 =
      [LockEv.rlock, LockEv.runlock]) ∧
    (numPagesT ⟨[("a", ⟨"a", "", 0, 0⟩)], ["a"], 1, 0, 0⟩).2 =
      [LockEv.rlock, LockEv.runlock] ∧
    (sizePagesT ⟨[("a", ⟨"a", "", 0, 0⟩)], ["a"], 1, 0, 0⟩).2 =
      [LockEv.rlock, LockEv.runlock] :=
  lock_discipline ⟨[("a", ⟨"a", "", 0, 0⟩)], ["a"], 1, 0, 0⟩ ⟨"b", "", 0, 0⟩
    ⟨[("b", ⟨"b", "", 0, 0⟩)], ["b"], 1, 0, 0⟩
    [LockEv.rlock, LockEv.runlock, LockEv.wlock, LockEv.wunlock, LockEv.rlock,
      LockEv.runlock, LockEv.rlock, LockEv.runlock, LockEv.wlock, LockEv.wunlock]
    1 (by decide) (by decide) rfl

end Amfora
